import Mathlib

/-!
Verification of the Ruscii-Gen image-to-ascii pipeline against its design
specification.  The Rust sources are shallowly embedded: `f32` angle and
threshold arithmetic is modelled by exact rationals, `ndarray` grids by
`List (List ℕ)`, and the `HashMap` histogram of the edge downscaler by an
association list kept in first-insertion order.
-/

set_option maxHeartbeats 1000000

namespace RusciiGen

/-! ### Edge detector (src/image_manip/edge_detect.rs, `Sobel::apply`)

The five bucket masks over the normalized gradient angle `theta_norm`,
transcribed from lines 58-75.  Each mask is a boolean predicate on the
angle value; the masks are later applied in the order
space, vertical, horizontal, diagonal-1, diagonal-2, a later mask
overwriting the class written by an earlier one (lines 77-95). -/

/-- Mask `x == 0.5` for the "none" class (line 58). -/
def space_mask (x : ℚ) : Bool := decide (x = 0.5)

/-- Mask `0.95 <= x && x <= 1.0` for the vertical class (line 59). -/
def vert_mask (x : ℚ) : Bool := decide (0.95 ≤ x) && decide (x ≤ 1.0)

/-- Mask `[0.25,0.27) ∪ [0.75,0.77)` for the horizontal class (lines 60-61). -/
def hori_mask (x : ℚ) : Bool :=
  (decide (0.25 ≤ x) && decide (x < 0.27)) || (decide (0.75 ≤ x) && decide (x < 0.77))

/-- Mask for diagonal-type-1 (lines 64-69): base ranges `[0.0,0.28) ∪ [0.55,0.78)`
with the horizontal ranges and the 0.5 point explicitly excluded. -/
def diag_mask_1 (x : ℚ) : Bool :=
  ((decide (0.0 ≤ x) && decide (x < 0.28)) || (decide (0.55 ≤ x) && decide (x < 0.78)))
    && !(decide (0.75 ≤ x) && decide (x < 0.77))
    && !(decide (x = 0.5))
    && !(decide (0.25 ≤ x) && decide (x < 0.27))

/-- Mask for diagonal-type-2 (lines 70-75): base ranges `[0.28,0.55) ∪ [0.78,1.0)`
with the horizontal ranges and the 0.5 point explicitly excluded, but NOT the
vertical range `[0.95,1.0]`. -/
def diag_mask_2 (x : ℚ) : Bool :=
  ((decide (0.28 ≤ x) && decide (x < 0.55)) || (decide (0.78 ≤ x) && decide (x < 1.0)))
    && !(decide (0.75 ≤ x) && decide (x < 0.77))
    && !(decide (x = 0.5))
    && !(decide (0.25 ≤ x) && decide (x < 0.27))

/-- The `masks` vector of `Sobel::apply` (lines 77-83): each mask paired with
the class value it writes, in application order. -/
def sobelMasks (x : ℚ) : List (Bool × ℕ) :=
  [(space_mask x, 0), (vert_mask x, 2), (hori_mask x, 1), (diag_mask_1 x, 3), (diag_mask_2 x, 4)]

/-- The class finally stored for a pixel with angle `x`: the output starts at 0
and every mask that matches overwrites it with its class, in the order of
`sobelMasks` (lines 85-95), so the last matching mask wins. -/
def classify (x : ℚ) : ℕ :=
  (sobelMasks x).foldl (fun acc mv => if mv.1 then mv.2 else acc) 0

theorem space_mask_at_096 : space_mask 0.96 = false := by norm_num [space_mask]

theorem vert_mask_at_096 : vert_mask 0.96 = true := by norm_num [vert_mask]

theorem hori_mask_at_096 : hori_mask 0.96 = false := by norm_num [hori_mask]

theorem diag_mask_1_at_096 : diag_mask_1 0.96 = false := by norm_num [diag_mask_1]

theorem diag_mask_2_at_096 : diag_mask_2 0.96 = true := by norm_num [diag_mask_2]

/-- C1: the five bucket masks are not pairwise disjoint: at `theta_norm = 0.96`
both the vertical mask and the diagonal-2 mask hold, so 0.96 is
double-classified (two of the five mask/class pairs fire). -/
theorem sobel_buckets_not_disjoint :
    vert_mask 0.96 = true ∧ diag_mask_2 0.96 = true ∧
      ((sobelMasks 0.96).filter (fun mv => mv.1)).length = 2 := by
  refine ⟨vert_mask_at_096, diag_mask_2_at_096, ?_⟩
  simp [sobelMasks, space_mask_at_096, vert_mask_at_096, hori_mask_at_096,
    diag_mask_1_at_096, diag_mask_2_at_096]

/-- C2: at `theta_norm = 0.96 ∈ [0.95, 1.0]` the class actually written to the
output buffer is diagonal-2 (4), not vertical (2), because `diag_mask_2` also
matches and is applied after `vert_mask`. -/
theorem sobel_vertical_overwritten :
    classify 0.96 = 4 ∧ classify 0.96 ≠ 2 := by
  have h : classify 0.96 = 4 := by
    simp [classify, sobelMasks, space_mask_at_096, vert_mask_at_096, hori_mask_at_096,
      diag_mask_1_at_096, diag_mask_2_at_096]
  exact ⟨h, by rw [h]; decide⟩

/-! ### Luminance quantizer (src/ascii/converter.rs, lines 176-181)

`index = ((x as f32 / 255.0) * (N - 1) as f32).floor() as usize` for a pixel
value `x` and tile palette size `N`; modelled over `ℚ`. -/

/-- Palette index chosen by the quantizer for pixel value `p` and palette size `n`. -/
def quantIndex (n p : ℕ) : ℕ := ⌊((p : ℚ) / 255) * ((n : ℚ) - 1)⌋₊

theorem quantIndex_eq_div (n p : ℕ) (hn : 1 ≤ n) : quantIndex n p = p * (n - 1) / 255 := by
  have hcast : ((n - 1 : ℕ) : ℚ) = (n : ℚ) - 1 := by
    push_cast [Nat.cast_sub hn]
    ring
  have harg : ((p : ℚ) / 255) * ((n : ℚ) - 1) = ((p * (n - 1) : ℕ) : ℚ) / ((255 : ℕ) : ℚ) := by
    rw [← hcast]
    push_cast
    ring
  rw [quantIndex, harg, Nat.floor_div_nat, Nat.floor_natCast]

/-- C6: the quantizer computes `floor((p/255)*(N-1))`, sends 0 to index 0 and
255 to index `N-1` exactly, and never produces an index past the palette. -/
theorem quantizer_boundaries (n p : ℕ) (hn : 1 ≤ n) (hp : p ≤ 255) :
    quantIndex n p = p * (n - 1) / 255 ∧ quantIndex n p ≤ n - 1 ∧
      quantIndex n 0 = 0 ∧ quantIndex n 255 = n - 1 := by
  have hdiv := quantIndex_eq_div n p hn
  refine ⟨hdiv, ?_, ?_, ?_⟩
  · rw [hdiv]
    calc p * (n - 1) / 255 ≤ 255 * (n - 1) / 255 :=
          Nat.div_le_div_right (Nat.mul_le_mul_right _ hp)
      _ = n - 1 := Nat.mul_div_cancel_left _ (by norm_num)
  · rw [quantIndex_eq_div n 0 hn]
    simp
  · rw [quantIndex_eq_div n 255 hn]
    exact Nat.mul_div_cancel_left _ (by norm_num)

/-- C6 witness at palette size 13 (the default tile palette) and pixel 128. -/
theorem quantizer_boundaries_witness :
    (1 ≤ 13 ∧ 128 ≤ 255) ∧
      (quantIndex 13 128 = 128 * (13 - 1) / 255 ∧ quantIndex 13 128 ≤ 13 - 1 ∧
        quantIndex 13 0 = 0 ∧ quantIndex 13 255 = 13 - 1) :=
  ⟨⟨by decide, by decide⟩, quantizer_boundaries 13 128 (by decide) (by decide)⟩

/-- C7: the quantizer is monotone: a strictly smaller pixel value never gets a
larger palette index. -/
theorem quantizer_monotone (n p q : ℕ) (hn : 1 ≤ n) (hpq : p < q) :
    quantIndex n p ≤ quantIndex n q := by
  apply Nat.floor_mono
  have hfac : (0 : ℚ) ≤ (n : ℚ) - 1 := by
    have : (1 : ℚ) ≤ (n : ℚ) := by exact_mod_cast hn
    linarith
  have hx : ((p : ℚ) / 255) ≤ ((q : ℚ) / 255) := by
    have : (p : ℚ) ≤ (q : ℚ) := by exact_mod_cast hpq.le
    linarith
  exact mul_le_mul_of_nonneg_right hx hfac

/-- C7 witness at palette size 13, pixel values 10 < 200. -/
theorem quantizer_monotone_witness :
    (1 ≤ 13 ∧ 10 < 200) ∧ quantIndex 13 10 ≤ quantIndex 13 200 :=
  ⟨⟨by decide, by decide⟩, quantizer_monotone 13 10 200 (by decide) (by decide)⟩

/-! ### Edge downscaler (src/image_manip/edge_processor.rs, `EdgeDownscaler::hist_downscale`)

The per-cell loop body (lines 24-56) builds a histogram of the cell's
`tile_size × tile_size` block, tracking a running maximum, then gates the
write by `hist.values().filter(|&&x| x != 0).count() / (tile_size*tile_size)
>= thres_ratio`.  The `HashMap` is modelled by an association list in
first-insertion order (iteration order only matters through the
order-independent count), and the per-cell parallel loop with its mutex by a
pure per-cell map, which is equivalent because distinct cells write to
distinct entries of the output. -/

/-- State of the histogram scan: the histogram, `max_val` and `max_count`
(lines 27-29). -/
structure ScanState where
  hist : List (ℕ × ℕ)
  maxVal : ℕ
  maxCount : ℕ

/-- `*hist.entry(value).or_insert(0) += 1` (line 38) on the association list. -/
def bump : List (ℕ × ℕ) → ℕ → List (ℕ × ℕ)
  | [], v => [(v, 1)]
  | (k, c) :: rest, v => if k = v then (k, c + 1) :: rest else (k, c) :: bump rest v

/-- `hist[&value]`: the count stored for `v`, 0 when absent. -/
def lookupCount : List (ℕ × ℕ) → ℕ → ℕ
  | [], _ => 0
  | (k, c) :: rest, v => if k = v then c else lookupCount rest v

/-- One iteration of the block scan (lines 37-45): bump the histogram and
update `max_val`/`max_count` when the bumped count strictly exceeds the
running maximum. -/
def scanStep (st : ScanState) (v : ℕ) : ScanState :=
  if st.maxCount < lookupCount (bump st.hist v) v then
    ⟨bump st.hist v, v, lookupCount (bump st.hist v) v⟩
  else
    ⟨bump st.hist v, st.maxVal, st.maxCount⟩

/-- The whole histogram scan of a block, in row-major iteration order. -/
def scanTile (l : List ℕ) : ScanState := l.foldl scanStep ⟨[], 0, 0⟩

/-- `hist.values().filter(|&&x| x != 0).count()` (line 48). -/
def edgeValueCount (st : ScanState) : ℕ := (st.hist.filter (fun e => !(e.2 == 0))).length

/-- The `tile_size × tile_size` sub-block for output cell `(i, j)` (lines
32-35), flattened in the row-major order of `tile.iter()`. -/
def blockElems (arr : List (List ℕ)) (ts i j : ℕ) : List ℕ :=
  ((arr.drop (i * ts)).take ts).flatMap fun row => (row.drop (j * ts)).take ts

/-- Value of output cell `(i, j)`: the block's running-maximum class when the
density gate of lines 48-51 passes, otherwise the initial 0 of
`Array2::zeros`. -/
def cellValue (arr : List (List ℕ)) (ts : ℕ) (t : ℚ) (i j : ℕ) : ℕ :=
  let st := scanTile (blockElems arr ts i j)
  if t ≤ (edgeValueCount st : ℚ) / ((ts * ts : ℕ) : ℚ) then st.maxVal else 0

/-- `EdgeDownscaler::hist_downscale`: the downscaled `new_size.1 × new_size.2`
edge-class grid. -/
def hist_downscale (arr : List (List ℕ)) (ts : ℕ) (t : ℚ) (newSize : ℕ × ℕ) :
    List (List ℕ) :=
  (List.range newSize.1).map fun i => (List.range newSize.2).map fun j => cellValue arr ts t i j

/-- Entry `(i, j)` of a grid, with the 0 of `Array2::zeros` as default. -/
def gridGet (g : List (List ℕ)) (i j : ℕ) : ℕ := (g.getD i []).getD j 0

/-- Number of distinct classes present in a block; the spec's
"number of distinct classes present in the block" for the density gate. -/
def distinctClassCount (l : List ℕ) : ℕ := l.dedup.length

/-- Highest class frequency in a block. -/
def maxFreq (l : List ℕ) : ℕ := (l.map fun v => l.count v).foldr max 0

/-- Modelled from the spec: the mode with the spec's claimed tie-break,
"breaking ties by first-seen class during the scan" — the first value of the
row-major scan whose frequency is the highest frequency. -/
def firstSeenMode (l : List ℕ) : ℕ := (l.find? fun v => l.count v == maxFreq l).getD 0

/-! Invariant of the histogram scan, relating the state after processing a
prefix `p` of the block to the counts in `p`. -/

theorem lookupCount_bump_self (h : List (ℕ × ℕ)) (v : ℕ) :
    lookupCount (bump h v) v = lookupCount h v + 1 := by
  induction h with
  | nil => simp [bump, lookupCount]
  | cons e rest ih =>
    obtain ⟨k, c⟩ := e
    by_cases hkv : k = v
    · subst hkv
      simp [bump, lookupCount]
    · simp [bump, lookupCount, hkv, ih]

theorem lookupCount_bump_ne (h : List (ℕ × ℕ)) (v d : ℕ) (hne : d ≠ v) :
    lookupCount (bump h v) d = lookupCount h d := by
  induction h with
  | nil => simp [bump, lookupCount, hne, Ne.symm hne]
  | cons e rest ih =>
    obtain ⟨k, c⟩ := e
    by_cases hkv : k = v
    · subst hkv
      simp [bump, lookupCount, Ne.symm hne]
    · by_cases hkd : k = d
      · subst hkd
        simp [bump, lookupCount, hkv]
      · simp [bump, lookupCount, hkv, hkd, ih]

theorem keys_bump (h : List (ℕ × ℕ)) (v : ℕ) :
    (bump h v).map Prod.fst =
      if v ∈ h.map Prod.fst then h.map Prod.fst else h.map Prod.fst ++ [v] := by
  induction h with
  | nil => simp [bump]
  | cons e rest ih =>
    obtain ⟨k, c⟩ := e
    by_cases hkv : k = v
    · subst hkv
      simp [bump]
    · by_cases hv : v ∈ rest.map Prod.fst <;>
        simp [bump, hkv, ih, hv, Ne.symm hkv]

theorem lookupCount_of_mem {h : List (ℕ × ℕ)} (hnd : (h.map Prod.fst).Nodup)
    {e : ℕ × ℕ} (he : e ∈ h) : lookupCount h e.1 = e.2 := by
  induction h with
  | nil => cases he
  | cons f rest ih =>
    obtain ⟨k, c⟩ := f
    rcases List.mem_cons.mp he with rfl | hrest
    · simp [lookupCount]
    · have hmem : e.1 ∈ rest.map Prod.fst := List.mem_map_of_mem Prod.fst hrest
      have hk : k ≠ e.1 := by
        intro hkk
        apply (List.nodup_cons.mp hnd).1
        rw [hkk]
        exact hmem
      simp [lookupCount, hk, ih (List.nodup_cons.mp hnd).2 hrest]

theorem count_append_single (p : List ℕ) (v d : ℕ) :
    (p ++ [v]).count d = p.count d + if d = v then 1 else 0 := by
  by_cases hdv : d = v
  · subst hdv
    simp [List.count_append]
  · simp [List.count_append, List.count_singleton', hdv]

/-- Invariant tying the scan state to the already-processed prefix `p`:
the histogram stores exactly the frequencies of `p` with no duplicate keys,
`max_count` is the highest frequency attained by `max_val`, and `max_val`
was the first value to reach that frequency. -/
structure ScanInv (p : List ℕ) (st : ScanState) : Prop where
  lookup_eq : ∀ d, lookupCount st.hist d = p.count d
  keys_nodup : (st.hist.map Prod.fst).Nodup
  keys_mem : ∀ d, d ∈ st.hist.map Prod.fst ↔ d ∈ p
  max_eq : p.count st.maxVal = st.maxCount
  max_ub : ∀ d, p.count d ≤ st.maxCount
  first_reach : st.maxCount = 0 ∨
    ∃ k, k ≤ p.length ∧ (p.take k).count st.maxVal = st.maxCount ∧
      ∀ d, d ≠ st.maxVal → (p.take k).count d < st.maxCount

theorem scanStep_inv {p : List ℕ} {st : ScanState} (inv : ScanInv p st) (v : ℕ) :
    ScanInv (p ++ [v]) (scanStep st v) := by
  have hlook : lookupCount (bump st.hist v) v = p.count v + 1 := by
    rw [lookupCount_bump_self, inv.lookup_eq]
  have hlookup' : ∀ d, lookupCount (bump st.hist v) d = (p ++ [v]).count d := by
    intro d
    by_cases hdv : d = v
    · subst hdv
      rw [hlook, count_append_single]
      simp
    · rw [lookupCount_bump_ne _ _ _ hdv, inv.lookup_eq, count_append_single]
      simp [hdv]
  have hkeys_nodup : ((bump st.hist v).map Prod.fst).Nodup := by
    rw [keys_bump]
    by_cases hv : v ∈ st.hist.map Prod.fst
    · simpa [hv] using inv.keys_nodup
    · simp only [hv, if_false]
      rw [List.nodup_append]
      exact ⟨inv.keys_nodup, List.nodup_singleton v,
        fun a ha hav => hv ((List.mem_singleton.mp hav) ▸ ha)⟩
  have hkeys_mem : ∀ d, d ∈ (bump st.hist v).map Prod.fst ↔ d ∈ p ++ [v] := by
    intro d
    rw [keys_bump]
    by_cases hv : v ∈ st.hist.map Prod.fst
    · simp only [hv, if_true, List.mem_append, List.mem_singleton, inv.keys_mem]
      constructor
      · exact fun hd => Or.inl hd
      · rintro (hd | rfl)
        · exact hd
        · exact (inv.keys_mem d).mp hv
    · simp [hv, List.mem_append, inv.keys_mem]
  unfold scanStep
  by_cases hlt : st.maxCount < lookupCount (bump st.hist v) v
  · rw [if_pos hlt]
    have hveq : p.count v = st.maxCount := by
      have h1 := inv.max_ub v
      omega
    refine ⟨hlookup', hkeys_nodup, hkeys_mem, ?_, ?_, ?_⟩
    · rw [count_append_single]
      simp [hlook, hveq]
    · intro d
      rw [count_append_single]
      by_cases hdv : d = v
      · subst hdv
        simp [hlook, hveq]
      · have := inv.max_ub d
        simp [hdv]
        omega
    · right
      refine ⟨(p ++ [v]).length, le_refl _, ?_, ?_⟩
      · rw [List.take_length, count_append_single]
        simp [hlook, hveq]
      · intro d hdv
        rw [List.take_length, count_append_single, hlook]
        have := inv.max_ub d
        simp [hdv]
        omega
  · rw [if_neg hlt]
    have hc : p.count v + 1 ≤ st.maxCount := by omega
    have hvne : v ≠ st.maxVal := by
      intro hveq
      have := inv.max_eq
      rw [← hveq] at this
      omega
    refine ⟨hlookup', hkeys_nodup, hkeys_mem, ?_, ?_, ?_⟩
    · rw [count_append_single]
      simp [Ne.symm hvne, inv.max_eq]
    · intro d
      rw [count_append_single]
      by_cases hdv : d = v
      · subst hdv
        simp
        omega
      · have := inv.max_ub d
        simp [hdv]
        omega
    · rcases inv.first_reach with h0 | ⟨k, hk, hkc, hkd⟩
      · omega
      · right
        refine ⟨k, ?_, ?_, ?_⟩
        · rw [List.length_append]
          omega
        · rw [List.take_append_of_le_length hk]
          exact hkc
        · intro d hdv
          rw [List.take_append_of_le_length hk]
          exact hkd d hdv

theorem foldl_scanStep_inv :
    ∀ (l p : List ℕ) (st : ScanState), ScanInv p st →
      ScanInv (p ++ l) (l.foldl scanStep st)
  | [], p, st, inv => by simpa using inv
  | v :: l, p, st, inv => by
    have h := foldl_scanStep_inv l (p ++ [v]) (scanStep st v) (scanStep_inv inv v)
    simpa using h

theorem scanTile_inv (l : List ℕ) : ScanInv l (scanTile l) := by
  have hbase : ScanInv [] ⟨[], 0, 0⟩ :=
    ⟨fun d => rfl, List.nodup_nil, fun d => by simp [lookupCount], rfl, fun d => by simp,
      Or.inl rfl⟩
  simpa using foldl_scanStep_inv l [] ⟨[], 0, 0⟩ hbase

/-- The gate count of line 48 — histogram values with a nonzero count — equals
the number of distinct classes present in the block: every histogram entry has
a count of at least 1, and the keys enumerate the distinct block values. -/
theorem edgeValueCount_eq_distinct (l : List ℕ) :
    edgeValueCount (scanTile l) = distinctClassCount l := by
  have inv := scanTile_inv l
  have hpos : ∀ e ∈ (scanTile l).hist, ¬(e.2 = 0) := by
    intro e he hzero
    have h1 : lookupCount (scanTile l).hist e.1 = e.2 := lookupCount_of_mem inv.keys_nodup he
    have h2 : e.1 ∈ l := (inv.keys_mem e.1).mp (List.mem_map_of_mem Prod.fst he)
    have h3 : 0 < l.count e.1 := List.count_pos_iff.mpr h2
    rw [inv.lookup_eq] at h1
    omega
  have hfilter : (scanTile l).hist.filter (fun e => !(e.2 == 0)) = (scanTile l).hist :=
    List.filter_eq_self.mpr fun e he => by simpa using hpos e he
  have hperm : ((scanTile l).hist.map Prod.fst).Perm l.dedup :=
    (List.perm_ext_iff_of_nodup inv.keys_nodup l.nodup_dedup).mpr fun a => by
      rw [inv.keys_mem a, List.mem_dedup]
  calc edgeValueCount (scanTile l) = (scanTile l).hist.length := by
        rw [edgeValueCount, hfilter]
    _ = ((scanTile l).hist.map Prod.fst).length := (List.length_map _ _).symm
    _ = l.dedup.length := hperm.length_eq
    _ = distinctClassCount l := rfl

theorem getD_map_range {α : Type} (n i : ℕ) (hi : i < n) (f : ℕ → α) (d : α) :
    ((List.range n).map f).getD i d = f i := by
  rw [List.getD_eq_getElem?_getD, List.getElem?_map, List.getElem?_range hi]
  rfl

/-- Output cell `(i, j)` of `hist_downscale` is the per-cell value of the loop
body, for indices inside the output grid. -/
theorem hist_downscale_cell (arr : List (List ℕ)) (ts : ℕ) (t : ℚ) (r c i j : ℕ)
    (hi : i < r) (hj : j < c) :
    gridGet (hist_downscale arr ts t (r, c)) i j = cellValue arr ts t i j := by
  have h1 : hist_downscale arr ts t (r, c) =
      (List.range r).map fun a => (List.range c).map fun b => cellValue arr ts t a b := rfl
  rw [gridGet, h1, getD_map_range r i hi _ [], getD_map_range c j hj _ 0]

/-- C3: each output cell of `hist_downscale` is its block's running-maximum
class when `(number of distinct classes present) / tile_size² ≥ thres_ratio`,
and keeps its initial value 0 otherwise: the gate counts distinct classes
present, not edge pixels.  The dimension hypotheses keep every block inside
the input array, matching the panic-free domain of the `ndarray` slicing. -/
theorem hist_downscale_density_gate (arr : List (List ℕ)) (ts : ℕ) (t : ℚ) (r c i j : ℕ)
    (hi : i < r) (hj : j < c) (hrows : r * ts ≤ arr.length)
    (hcols : ∀ row ∈ arr, c * ts ≤ row.length) :
    gridGet (hist_downscale arr ts t (r, c)) i j =
      if t ≤ (distinctClassCount (blockElems arr ts i j) : ℚ) / ((ts * ts : ℕ) : ℚ) then
        (scanTile (blockElems arr ts i j)).maxVal
      else 0 := by
  rw [hist_downscale_cell arr ts t r c i j hi hj, cellValue,
    edgeValueCount_eq_distinct]

/-- C3 witness: a 2×2 block with classes `{0, 1}` and threshold 1/2: density
is 2/4 ≥ 1/2, so the cell receives the block's mode class. -/
theorem hist_downscale_density_gate_witness :
    ((0 : ℕ) < 1 ∧ (0 : ℕ) < 1 ∧ 1 * 2 ≤ ([[0, 1], [1, 1]] : List (List ℕ)).length ∧
        ∀ row ∈ ([[0, 1], [1, 1]] : List (List ℕ)), 1 * 2 ≤ row.length) ∧
      gridGet (hist_downscale [[0, 1], [1, 1]] 2 (1/2) (1, 1)) 0 0 =
        if (1/2 : ℚ) ≤ (distinctClassCount (blockElems [[0, 1], [1, 1]] 2 0 0) : ℚ) /
            ((2 * 2 : ℕ) : ℚ) then
          (scanTile (blockElems [[0, 1], [1, 1]] 2 0 0)).maxVal
        else 0 :=
  ⟨⟨by decide, by decide, by decide, by decide⟩,
    hist_downscale_density_gate [[0, 1], [1, 1]] 2 (1/2) 1 1 0 0 (by decide) (by decide)
      (by decide) (by decide)⟩

/-- C4 counterexample: on the 2×2 block `[[1, 2], [2, 1]]` (row-major scan
`1, 2, 2, 1`) classes 1 and 2 tie with frequency 2; the first-seen tied class
is 1, but `hist_downscale` writes 2 — the class whose count reached the
maximum first. -/
theorem hist_downscale_tiebreak_counterexample :
    gridGet (hist_downscale [[1, 2], [2, 1]] 2 0 (1, 1)) 0 0 = 2 ∧
      blockElems [[1, 2], [2, 1]] 2 0 0 = [1, 2, 2, 1] ∧
      ([1, 2, 2, 1] : List ℕ).count 1 = 2 ∧ ([1, 2, 2, 1] : List ℕ).count 2 = 2 ∧
      firstSeenMode [1, 2, 2, 1] = 1 := by
  refine ⟨?_, by decide, by decide, by decide, by decide⟩
  rw [hist_downscale_cell _ _ _ 1 1 0 0 (by decide) (by decide), cellValue]
  norm_num [blockElems, scanTile, scanStep, bump, lookupCount, edgeValueCount,
    List.foldl]

/-- C4 as amended: the selected mode attains the highest frequency of the
block, and among the classes it is the first one whose running count reaches
that highest frequency during the row-major scan (at some prefix `take k` the
selected class already has the final maximal count while every other class is
still strictly below it) — which is not always the first-seen tied class. -/
theorem scanTile_mode_first_to_reach (l : List ℕ) (hne : l ≠ []) :
    l.count (scanTile l).maxVal = (scanTile l).maxCount ∧
      (∀ d, l.count d ≤ (scanTile l).maxCount) ∧
      ∃ k, k ≤ l.length ∧ (l.take k).count (scanTile l).maxVal = (scanTile l).maxCount ∧
        ∀ d, d ≠ (scanTile l).maxVal → (l.take k).count d < (scanTile l).maxCount := by
  have inv := scanTile_inv l
  refine ⟨inv.max_eq, inv.max_ub, ?_⟩
  rcases inv.first_reach with h0 | h
  · obtain ⟨v, hv⟩ := List.exists_mem_of_ne_nil l hne
    have h1 := inv.max_ub v
    have h2 : 0 < l.count v := List.count_pos_iff.mpr hv
    omega
  · exact h

theorem mem_blockElems {arr : List (List ℕ)} {ts i j x : ℕ}
    (hx : x ∈ blockElems arr ts i j) : ∃ row ∈ arr, x ∈ row := by
  rw [blockElems] at hx
  rcases List.mem_flatMap.mp hx with ⟨row, hrow, hxr⟩
  exact ⟨row, List.mem_of_mem_drop (List.mem_of_mem_take hrow),
    List.mem_of_mem_drop (List.mem_of_mem_take hxr)⟩

theorem distinctClassCount_le_five {l : List ℕ} (hl : ∀ x ∈ l, x < 5) :
    distinctClassCount l ≤ 5 := by
  have hsub : l.toFinset ⊆ Finset.range 5 := fun x hx =>
    Finset.mem_range.mpr (hl x (List.mem_toFinset.mp hx))
  calc distinctClassCount l = l.toFinset.card := (List.card_toFinset l).symm
    _ ≤ (Finset.range 5).card := Finset.card_le_card hsub
    _ = 5 := Finset.card_range 5

/-- C5: with threshold 0 every cell of `hist_downscale` receives its block's
mode class, and with threshold 1 and a block size above 5 every cell of an
input whose classes lie in `{0,…,4}` stays 0, because a block can contain at
most 5 distinct classes. -/
theorem downscaler_threshold_boundary (arr : List (List ℕ)) (ts r c : ℕ)
    (hrows : r * ts ≤ arr.length) (hcols : ∀ row ∈ arr, c * ts ≤ row.length) :
    (∀ i j, i < r → j < c →
        gridGet (hist_downscale arr ts 0 (r, c)) i j =
          (scanTile (blockElems arr ts i j)).maxVal) ∧
      (5 < ts * ts → (∀ row ∈ arr, ∀ x ∈ row, x < 5) →
        ∀ i j, i < r → j < c → gridGet (hist_downscale arr ts 1 (r, c)) i j = 0) := by
  constructor
  · intro i j hi hj
    rw [hist_downscale_cell arr ts 0 r c i j hi hj, cellValue, if_pos]
    exact div_nonneg (Nat.cast_nonneg _) (Nat.cast_nonneg _)
  · intro hts5 hbound i j hi hj
    rw [hist_downscale_cell arr ts 1 r c i j hi hj, cellValue,
      edgeValueCount_eq_distinct, if_neg]
    intro hge
    have hd5 : distinctClassCount (blockElems arr ts i j) ≤ 5 := by
      apply distinctClassCount_le_five
      intro x hx
      obtain ⟨row, hrow, hxr⟩ := mem_blockElems hx
      exact hbound row hrow x hxr
    have hlt : (distinctClassCount (blockElems arr ts i j) : ℚ) < ((ts * ts : ℕ) : ℚ) := by
      exact_mod_cast lt_of_le_of_lt hd5 hts5
    have hpos : (0 : ℚ) < ((ts * ts : ℕ) : ℚ) := by
      have : 0 < ts * ts := by omega
      exact_mod_cast this
    have hlt1 : (distinctClassCount (blockElems arr ts i j) : ℚ) / ((ts * ts : ℕ) : ℚ) < 1 :=
      (div_lt_one hpos).mpr hlt
    linarith

/-- C5 witness: a 3×3 input (block size 9 > 5) with classes in `{0,…,4}`. -/
theorem downscaler_threshold_boundary_witness :
    (1 * 3 ≤ ([[0, 1, 2], [3, 4, 0], [1, 1, 2]] : List (List ℕ)).length ∧
        ∀ row ∈ ([[0, 1, 2], [3, 4, 0], [1, 1, 2]] : List (List ℕ)), 1 * 3 ≤ row.length) ∧
      ((∀ i j, i < 1 → j < 1 →
          gridGet (hist_downscale [[0, 1, 2], [3, 4, 0], [1, 1, 2]] 3 0 (1, 1)) i j =
            (scanTile (blockElems [[0, 1, 2], [3, 4, 0], [1, 1, 2]] 3 i j)).maxVal) ∧
        (5 < 3 * 3 →
          (∀ row ∈ ([[0, 1, 2], [3, 4, 0], [1, 1, 2]] : List (List ℕ)), ∀ x ∈ row, x < 5) →
          ∀ i j, i < 1 → j < 1 →
            gridGet (hist_downscale [[0, 1, 2], [3, 4, 0], [1, 1, 2]] 3 1 (1, 1)) i j = 0)) :=
  ⟨⟨by decide, by decide⟩,
    downscaler_threshold_boundary [[0, 1, 2], [3, 4, 0], [1, 1, 2]] 3 1 1
      (by decide) (by decide)⟩

/-- C4 amended-claim witness on the tied block `[1, 2, 2, 1]`. -/
theorem scanTile_mode_first_to_reach_witness :
    ([1, 2, 2, 1] : List ℕ) ≠ [] ∧
      (([1, 2, 2, 1] : List ℕ).count (scanTile [1, 2, 2, 1]).maxVal =
          (scanTile [1, 2, 2, 1]).maxCount ∧
        (∀ d, ([1, 2, 2, 1] : List ℕ).count d ≤ (scanTile [1, 2, 2, 1]).maxCount) ∧
        ∃ k, k ≤ ([1, 2, 2, 1] : List ℕ).length ∧
          (([1, 2, 2, 1] : List ℕ).take k).count (scanTile [1, 2, 2, 1]).maxVal =
            (scanTile [1, 2, 2, 1]).maxCount ∧
          ∀ d, d ≠ (scanTile [1, 2, 2, 1]).maxVal →
            (([1, 2, 2, 1] : List ℕ).take k).count d < (scanTile [1, 2, 2, 1]).maxCount) :=
  ⟨by decide, scanTile_mode_first_to_reach [1, 2, 2, 1] (by decide)⟩

/-! ### Character palette and compositor (src/ascii/char_set.rs, converter.rs) -/

/-- `CharacterSet` (src/ascii/char_set.rs): the tile and edge glyph palettes. -/
structure CharacterSet where
  tile : List Char
  edge : List Char

/-- `CharacterSet::default` (src/ascii/char_set.rs, lines 8-17). -/
def defaultCharacterSet : CharacterSet where
  tile := [' ', '.', ',', '*', ':', 'c', 'o', 'P', 'O', '?', '%', '&', '@']
  edge := [' ', '_', '|', '/', '\\']

/-- `self.pixel_mapping.edge[x as usize]` (converter.rs line 201): the edge
glyph for a downscaled edge class. -/
def edgeClassChar (cs : CharacterSet) (v : ℕ) : Char := cs.edge.getD v ' '

/-- Compositing step of `Converter::convert_img` (converter.rs lines 195-210):
the downscaled edge classes are first mapped to edge glyphs, then zipped with
the tile glyph grid, a cell keeping its edge glyph unless that glyph is the
blank `' '`, in which case the tile glyph is used. -/
def compositeGrid (cs : CharacterSet) (tileG : List (List Char))
    (edgeG : List (List ℕ)) : List (List Char) :=
  List.zipWith
    (fun trow erow =>
      List.zipWith (fun tch ech => if ech = ' ' then tch else ech) trow
        (erow.map (edgeClassChar cs)))
    tileG edgeG

theorem getD_zipWith {α β γ : Type} (f : α → β → γ) (da : α) (db : β) (dc : γ) :
    ∀ (la : List α) (lb : List β) (i : ℕ), i < la.length → i < lb.length →
      (List.zipWith f la lb).getD i dc = f (la.getD i da) (lb.getD i db)
  | [], _, i, hi, _ => by simp at hi
  | _ :: _, [], i, _, hj => by simp at hj
  | a :: la, b :: lb, 0, _, _ => by simp
  | a :: la, b :: lb, (i + 1), hi, hj => by
    simp only [List.zipWith_cons_cons, List.getD_cons_succ]
    exact getD_zipWith f da db dc la lb i (by simpa using hi) (by simpa using hj)

theorem getD_map {α β : Type} (f : α → β) (d : β) (d' : α) :
    ∀ (l : List α) (i : ℕ), i < l.length → (l.map f).getD i d = f (l.getD i d')
  | [], i, hi => by simp at hi
  | a :: l, 0, _ => by simp
  | a :: l, (i + 1), hi => by
    simp only [List.map_cons, List.getD_cons_succ]
    exact getD_map f d d' l i (by simpa using hi)

/-- C8: in the composited grid with the default character set, a cell whose
downscaled edge class is 0 (none) shows its tile glyph, and a cell with a
non-zero edge class shows the edge-palette glyph of that class — the edge
glyph wins whenever an edge is present, independently per cell. -/
theorem compositor_edge_wins (tileG : List (List Char)) (edgeG : List (List ℕ)) (i j : ℕ)
    (hti : i < tileG.length) (hei : i < edgeG.length)
    (htj : j < (tileG.getD i []).length) (hej : j < (edgeG.getD i []).length)
    (hcls : gridGet edgeG i j < 5) :
    ((compositeGrid defaultCharacterSet tileG edgeG).getD i []).getD j ' ' =
      if gridGet edgeG i j = 0 then (tileG.getD i []).getD j ' '
      else edgeClassChar defaultCharacterSet (gridGet edgeG i j) := by
  rw [compositeGrid, getD_zipWith _ [] [] [] tileG edgeG i hti hei]
  rw [getD_zipWith _ ' ' ' ' ' ' _ _ j htj (by simpa using hej)]
  rw [getD_map _ ' ' 0 _ j hej]
  rw [gridGet] at hcls ⊢
  set v := (edgeG.getD i []).getD j 0 with hv
  interval_cases v <;> simp [edgeClassChar, defaultCharacterSet]

/-- C8 witness: the specification's 3×3 compositor scenario, tile glyphs all
`'*'` and edge classes `[[0,1,0],[2,0,3],[0,0,4]]`, checked at cell (1,0)
whose class is 2 (vertical). -/
theorem compositor_edge_wins_witness :
    ((1 < ([[ '*', '*', '*'], ['*', '*', '*'], ['*', '*', '*']] : List (List Char)).length ∧
        1 < ([[0, 1, 0], [2, 0, 3], [0, 0, 4]] : List (List ℕ)).length) ∧
      (0 < (([[ '*', '*', '*'], ['*', '*', '*'], ['*', '*', '*']] :
          List (List Char)).getD 1 []).length ∧
        0 < (([[0, 1, 0], [2, 0, 3], [0, 0, 4]] : List (List ℕ)).getD 1 []).length) ∧
      gridGet [[0, 1, 0], [2, 0, 3], [0, 0, 4]] 1 0 < 5) ∧
      ((compositeGrid defaultCharacterSet [['*', '*', '*'], ['*', '*', '*'], ['*', '*', '*']]
            [[0, 1, 0], [2, 0, 3], [0, 0, 4]]).getD 1 []).getD 0 ' ' =
        if gridGet [[0, 1, 0], [2, 0, 3], [0, 0, 4]] 1 0 = 0 then
          (([['*', '*', '*'], ['*', '*', '*'], ['*', '*', '*']] :
            List (List Char)).getD 1 []).getD 0 ' '
        else edgeClassChar defaultCharacterSet (gridGet [[0, 1, 0], [2, 0, 3], [0, 0, 4]] 1 0) :=
  ⟨⟨⟨by decide, by decide⟩, ⟨by decide, by decide⟩, by decide⟩,
    compositor_edge_wins [['*', '*', '*'], ['*', '*', '*'], ['*', '*', '*']]
      [[0, 1, 0], [2, 0, 3], [0, 0, 4]] 1 0 (by decide) (by decide) (by decide) (by decide)
      (by decide)⟩

/-! ### Error handling (src/ascii/error.rs, converter.rs, font_loader.rs) -/

/-- `ConvertError` (src/ascii/error.rs). -/
inductive ConvertError where
  | ImageError
  | FileError
  | NdArrayShapeError
  | InvalidFont
deriving DecidableEq

/-- Outcome of the input-loading prefix of `convert_img`, distinguishing a
typed error returned to the caller from a panic. -/
inductive ImageLoadOutcome where
  | ok
  | error (e : ConvertError)
  | panicked
deriving DecidableEq

/-- The input-loading prefix of `Converter::convert_img` (converter.rs lines
153-157): `ImageReader::open(path)?` propagates an open failure as a typed
error through `From<io::Error>` (`FileError`), but both
`.with_guessed_format().unwrap()` and `.decode().unwrap()` panic on failure
instead of returning an error.  The three fallible collaborator calls are
abstracted by their success flags. -/
def convert_img_load (openOk formatOk decodeOk : Bool) : ImageLoadOutcome :=
  if openOk = false then ImageLoadOutcome.error ConvertError.FileError
  else if formatOk = false then ImageLoadOutcome.panicked
  else if decodeOk = false then ImageLoadOutcome.panicked
  else ImageLoadOutcome.ok

/-- C9: on a file that opens and has a recognizable format but fails to
decode, `convert_img` panics via `.unwrap()` rather than returning the typed
`ImageError` the specification promises to batch callers. -/
theorem convert_img_decode_panics :
    convert_img_load true true false = ImageLoadOutcome.panicked ∧
      convert_img_load true true false ≠ ImageLoadOutcome.error ConvertError.ImageError := by
  decide

/-- `FontSettings` (src/ascii/font_loader.rs). -/
structure FontSettings where
  font_size : ℕ
  font_path : String

/-- Outcome of the font loader. -/
inductive FontLoadOutcome where
  | ok
  | error (e : ConvertError)
deriving DecidableEq

/-- `FontLoader::load_font_from_settings` (font_loader.rs lines 32-48):
`fs::read` of the configured path (failure propagates as `FileError`); on a
parse failure of the configured data, one fallback `fs::read("font.ttf")`
followed by a second parse, whose failure is the only source of
`InvalidFont`.  The file system and the font parser are abstracted as
functions. -/
def load_font_from_settings (readFile : String → Option (List ℕ))
    (parseOk : List ℕ → Bool) (settings : FontSettings) : FontLoadOutcome :=
  match readFile settings.font_path with
  | none => FontLoadOutcome.error ConvertError.FileError
  | some dat =>
    if parseOk dat then FontLoadOutcome.ok
    else
      match readFile "font.ttf" with
      | none => FontLoadOutcome.error ConvertError.FileError
      | some fdat =>
        if parseOk fdat then FontLoadOutcome.ok
        else FontLoadOutcome.error ConvertError.InvalidFont

/-- C10: the font loader produces `InvalidFont` exactly when the configured
font data reads but fails to parse and the fallback bundled `font.ttf` also
reads but fails to parse; any read failure surfaces as `FileError` instead,
and a successful parse on either attempt returns the font. -/
theorem invalid_font_iff_both_parse_fail (readFile : String → Option (List ℕ))
    (parseOk : List ℕ → Bool) (settings : FontSettings) :
    load_font_from_settings readFile parseOk settings =
        FontLoadOutcome.error ConvertError.InvalidFont ↔
      (∃ dat, readFile settings.font_path = some dat ∧ parseOk dat = false) ∧
        (∃ fdat, readFile "font.ttf" = some fdat ∧ parseOk fdat = false) := by
  rw [load_font_from_settings]
  rcases hread : readFile settings.font_path with _ | dat
  · simp [hread]
  · rcases hparse : parseOk dat with _ | _
    · simp only [hparse, if_false]
      rcases hfb : readFile "font.ttf" with _ | fdat
      · simp [hread, hfb]
      · rcases hfbp : parseOk fdat with _ | _
        · simp [hread, hparse, hfb, hfbp]
        · simp [hread, hparse, hfb, hfbp]
    · simp [hread, hparse]

end RusciiGen
